import Mathlib

/-!
Verification development for the sidecore filesystem core
(cmds/sidecore/cpiobilly.go and its duplicated variants).

The Go source manipulates slash-separated relative paths through the
standard library functions strings.HasPrefix, filepath.Rel,
filepath.Split, filepath.Clean, filepath.Join and path.IsAbs.  The
first part of this file embeds those library functions (for the unix
separator, with no volume names) so that the embedded repository code
can call them; the second part embeds the repository code itself; the
last part states and settles the claims.
-/

set_option maxHeartbeats 1000000

/-- Join a list of path components with the slash separator.
This is strings.Join(l, "/"). -/
def joinComponents : List String → String
  | [] => ""
  | [c] => c
  | c :: d :: rest => c ++ "/" ++ joinComponents (d :: rest)

/-- Helper for splitting a character list at every slash: returns the
slash-free pieces in order (the empty list of characters standing for an
empty piece). -/
def splitSlashChars : List Char → List (List Char)
  | [] => [[]]
  | c :: rest =>
    let r := splitSlashChars rest
    if c = '/' then [] :: r
    else match r with
      | [] => [[c]]
      | h :: t => (c :: h) :: t

/-- strings.Split(s, "/"): the slash-separated pieces of the string;
the empty string yields one empty piece. -/
def splitOnSlash (s : String) : List String :=
  (splitSlashChars s.data).map String.mk

/-- One step of the lexical cleaning loop of Go's filepath.Clean:
process components left to right, dropping empty and dot components,
and letting a dotdot component cancel the previous component (a dotdot
at the start is kept for relative paths and dropped for rooted paths).
The accumulator holds the already-processed components in reverse. -/
def cleanRevAux (rooted : Bool) (acc : List String) : List String → List String
  | [] => acc
  | c :: rest =>
    if c = "" ∨ c = "." then cleanRevAux rooted acc rest
    else if c = ".." then
      match acc with
      | a :: as => if a = ".." then cleanRevAux rooted (".." :: a :: as) rest
                   else cleanRevAux rooted as rest
      | [] => if rooted then cleanRevAux rooted [] rest
              else cleanRevAux rooted [".."] rest
    else cleanRevAux rooted (c :: acc) rest

/-- The components of the lexically cleaned path, in order. -/
def cleanComps (rooted : Bool) (l : List String) : List String :=
  (cleanRevAux rooted [] l).reverse

/-- path.IsAbs for unix: the path begins with a slash. -/
def isAbsStr (s : String) : Bool :=
  s.data.head? = some '/'

/-- Go's filepath.Clean for the unix separator: split on slashes, run the
cleaning loop, rebuild; the empty result is "." (or "/" when rooted), and
Clean("") is ".". -/
def goClean (s : String) : String :=
  if s = "" then "." else
  let rooted := isAbsStr s
  let l := cleanComps rooted (splitOnSlash s)
  if l.isEmpty then (if rooted then "/" else ".")
  else (if rooted then "/" ++ joinComponents l else joinComponents l)

/-- Strip the longest common component prefix from two component lists,
as the scanning loop of Go's filepath.Rel does on the cleaned paths. -/
def dropCommon : List String → List String → List String × List String
  | a :: as, b :: bs => if a = b then dropCommon as bs else (a :: as, b :: bs)
  | as, bs => (as, bs)

/-- Go's filepath.Rel for the unix separator, with none standing for the
error return.  Following the Go source: equal cleaned paths yield ".";
a rooted/relative mismatch is an error; otherwise the common component
prefix of the cleaned paths is stripped (the base path "." is treated as
empty, while a target cleaning to "." keeps its dot component), an
unconsumed leading dotdot in the base is an error, and the result climbs
out of the remaining base components and then descends into the
remaining target components. -/
def goRel (base targ : String) : Option String :=
  if goClean base = goClean targ then some "." else
  let babs := isAbsStr base
  let tabs := isAbsStr targ
  if babs ≠ tabs then none else
  let bc := cleanComps babs (splitOnSlash base)
  let tc0 := cleanComps tabs (splitOnSlash targ)
  let tc := if tc0.isEmpty ∧ ¬tabs then ["."] else tc0
  match dropCommon bc tc with
  | (br, tr) =>
    if br.head? = some ".." then none
    else some (joinComponents (List.replicate br.length ".." ++ tr))

/-- Go's filepath.Split: break the path just after its last slash,
returning the directory part (with the trailing slash) and the file
part. -/
def goSplit (p : String) : String × String :=
  let cs := p.data
  let fileRev := cs.reverse.takeWhile (fun c => c ≠ '/')
  (String.mk (cs.take (cs.length - fileRev.length)), String.mk fileRev.reverse)

/-- Go's filepath.Dir: the cleaned directory part of Split. -/
def goDir (p : String) : String :=
  goClean (goSplit p).1

/-- Go's filepath.Join restricted to two elements: empty elements are
skipped, the rest are joined with a slash and cleaned; all-empty input
gives the empty string. -/
def joinPath2 (a b : String) : String :=
  if a = "" ∧ b = "" then ""
  else if a = "" then goClean b
  else if b = "" then goClean (a ++ "/")
  else goClean (a ++ "/" ++ b)

/-- strings.HasPrefix: the character sequence of the candidate is an
initial segment of the character sequence of the string. -/
def goHasPrefix (s pre : String) : Bool :=
  pre.data.isPrefixOf s.data

/-! ## Data model of the repository code -/

/-- Error values returned by the embedded code.  Each constructor stands
for one distinct Go error value produced by the source: the os package
sentinel errors, syscall.ELOOP, io.EOF, and the two fmt.Errorf errors
built inside fsCPIO.Rename (the wrap of the failed target getfs, and the
cannot-cross-file-systems error). -/
inductive Err where
  | notExist
  | invalid
  | permission
  | exist
  | eloop
  | eof
  | renameWrap
  | renameCross
  | backing (n : Nat)
deriving DecidableEq, Repr

/-- Outcome of running a Go function: either a runtime panic or a
returned value (Go errors are returned values, not panics). -/
inductive GoRes (α : Type) where
  | panic (msg : String)
  | ret (val : α)
deriving DecidableEq, Repr

/-- A loaded cpio record: its full path, its raw Unix mode word, and its
payload.  Per the loader (cpio.ReadAllRecords), the record's FileSize
equals the payload length, so the size is represented by
content.length. -/
structure Record where
  name : String
  mode : Nat
  content : String
deriving DecidableEq, Repr

/-- A directory entry as surfaced by the billy layer: either an fstat
wrapping an archive record, or a ufstat carrying attributes obtained from
a backing filesystem together with an overriding display name (used for
the synthetic mount entries of the root listing). -/
inductive FileInfo where
  | fstat (r : Record)
  | ufstat (attrs : Nat) (name : String)
deriving DecidableEq, Repr

/-- The behaviour of a backing (billy.Filesystem) object attached at a
mount point, abstracted to the operations the embedded code invokes on
it.  fsid models the Go interface-value identity used by the source's
pointer comparison newosfs != oldosfs; lstatDot is the result of
Lstat(".") (none meaning an error), and the remaining fields give the
results of the forwarded calls. -/
structure BackingFS where
  fsid : Nat
  lstatDot : Option Nat
  readlinkFn : String → String × Option Err
  renameFn : String → String → Option Err
  readDirFn : String → List FileInfo × Option Err

/-- MountPoint from the source: a path prefix and a backing filesystem. -/
structure MountPoint where
  n : String
  fs : BackingFS

/-- fsCPIO from the source: the loaded record vector and the attached
mount points.  The name-to-index map built by NewfsCPIO is a pure
function of recs (see nameIndex below), so it is not duplicated in the
state. -/
structure FsCPIO where
  recs : List Record
  mnts : List MountPoint

/-! ## Embedded repository code -/

/-- The io/fs FileMode flag bits used by the source (Go uint32 values). -/
def goModeDir : Nat := 2 ^ 31

/-- fs.ModeSymlink. -/
def goModeSymlink : Nat := 2 ^ 27

/-- fs.ModeDevice. -/
def goModeDevice : Nat := 2 ^ 26

/-- fs.ModeNamedPipe. -/
def goModeNamedPipe : Nat := 2 ^ 25

/-- fs.ModeSocket. -/
def goModeSocket : Nat := 2 ^ 24

/-- fs.ModeSetuid. -/
def goModeSetuid : Nat := 2 ^ 23

/-- fs.ModeSetgid. -/
def goModeSetgid : Nat := 2 ^ 22

/-- fs.ModeSticky. -/
def goModeSticky : Nat := 2 ^ 21

/-- fs.ModeCharDevice. -/
def goModeCharDevice : Nat := 2 ^ 20

/-- fs.ModeIrregular. -/
def goModeIrregular : Nat := 2 ^ 19

/-- fs.ModeType, the mask FileMode.Type() applies. -/
def goModeType : Nat :=
  goModeDir ||| goModeSymlink ||| goModeNamedPipe ||| goModeSocket |||
    goModeDevice ||| goModeCharDevice ||| goModeIrregular

/-- uToGo from the source: convert a raw Unix mode word into an io/fs
FileMode.  The conversion to os.FileMode (a uint32) truncates the word;
the low nine permission bits are kept via the fs.ModePerm mask, and the
Unix type field selects one fs.Mode* flag (regular files, and any type
the switch does not list, contribute no flag). -/
def uToGo (m : Nat) : Nat :=
  let u := m % 2 ^ 32
  let perm := u &&& 0o777
  let t : Nat :=
    if u &&& 0o170000 = 0o010000 then goModeNamedPipe
    else if u &&& 0o170000 = 0o020000 then goModeCharDevice
    else if u &&& 0o170000 = 0o040000 then goModeDir
    else if u &&& 0o170000 = 0o060000 then goModeDevice
    else if u &&& 0o170000 = 0o120000 then goModeSymlink
    else 0
  perm ||| t

/-- fstat.ModTime from the source: always time.Unix(0, 0), i.e. the Unix
epoch, represented as 0. -/
def fstatModTime (_ : Record) : Int := 0

/-- fsCPIO.hasMount from the source: scan the mount list in order; the
first mount whose prefix is a string prefix of the name and against
which filepath.Rel succeeds wins, and the relative remainder is
returned; a Rel failure just moves to the next mount. -/
def FsCPIO.hasMount (f : FsCPIO) (n : String) : Option (MountPoint × String) :=
  f.mnts.findSome? (fun v =>
    if goHasPrefix n v.n then (goRel v.n n).map (fun r => (v, r)) else none)

/-- fsCPIO.getfs from the source: the backing filesystem and relative
path of the first matching mount, none when no mount matches. -/
def FsCPIO.getfs (f : FsCPIO) (filename : String) : Option (BackingFS × String) :=
  (f.hasMount filename).map (fun x => (x.1.fs, x.2))

/-- fsCPIO.mount from the source.  NOTE: in the Go source the loop
variable shadows the parameter, so the duplicate check runs hasMount on
each EXISTING mount's prefix (each of which matches itself) instead of
on the new mount's prefix; the new mount point is appended only when the
check finds nothing. -/
def FsCPIO.mount (f : FsCPIO) (mp : MountPoint) : Except Err FsCPIO :=
  if f.mnts.any (fun ex => (f.hasMount ex.n).isSome) then .error .exist
  else .ok ( FsCPIO.mk f.recs (f.mnts ++ [mp]))

/-- The name-to-index map built by NewfsCPIO: every record's name is put
into the map with its index, in order, so a duplicated name keeps the
last index.  Helper carrying the running index and the pending result. -/
def nameIndexAux (name : String) : List Record → Nat → Option Nat → Option Nat
  | [], _, acc => acc
  | r :: rest, i, acc =>
    nameIndexAux name rest (i + 1) (if r.name = name then some i else acc)

/-- Look a name up in the NewfsCPIO map: the index of the last record
with that name, if any. -/
def nameIndex (recs : List Record) (name : String) : Option Nat :=
  nameIndexAux name recs 0 none

/-- NewfsCPIO from the source: fail when the archive decoded to no
records, then attach the given mounts one by one through fsCPIO.mount,
failing on the first rejected mount. -/
def NewfsCPIO (recs : List Record) (mounts : List MountPoint) : Except Err FsCPIO :=
  if recs.length = 0 then .error .invalid
  else mounts.foldlM (fun f mp => f.mount mp) ( FsCPIO.mk recs [])

/-- fsCPIO.lookup from the source: the empty name maps to index 0 (the
root); any other name is looked up in the map, with NotExist when
absent. -/
def FsCPIO.lookup (f : FsCPIO) (filename : String) : Except Err Nat :=
  if 0 < filename.length then
    match nameIndex f.recs filename with
    | some ino => .ok ino
    | none => .error .notExist
  else .ok 0

/-- file.rec from the source: guard the index with a greater-than test
against the record-vector length (note: not greater-or-equal), then
index the vector; an index equal to the length passes the guard and the
indexing panics, as the Go slice access would. -/
def FsCPIO.recAt (f : FsCPIO) (path : Nat) : GoRes (Except Err Record) :=
  if path > f.recs.length then .ret (.error .notExist)
  else match f.recs.get? path with
    | some r => .ret (.ok r)
    | none => .panic "index out of range"

/-- cpio Record.ReadAt: bytes of the payload from the offset, at most
the buffer length, with io.EOF when the buffer is not filled. -/
def recReadAt (r : Record) (bufLen off : Nat) : String × Option Err :=
  let out := String.mk ((r.content.data.drop off).take bufLen)
  (out, if out.length < bufLen then some .eof else none)

/-- file.ReadAt from the source: resolve the record, then read from its
payload. -/
def fileReadAt (f : FsCPIO) (ino bufLen off : Nat) : GoRes (String × Option Err) :=
  match f.recAt ino with
  | .panic m => .panic m
  | .ret (.error e) => .ret ("", some e)
  | .ret (.ok r) => .ret (recReadAt r bufLen off)

/-- file.Readlink from the source (current variant): resolve the record,
fail with ErrInvalid when its mode is not a symlink, otherwise read the
whole payload as the target. -/
def fileReadlink (f : FsCPIO) (ino : Nat) : GoRes (String × Option Err) :=
  match f.recAt ino with
  | .panic m => .panic m
  | .ret (.error e) => .ret ("", some e)
  | .ret (.ok r) =>
    if (uToGo r.mode) &&& goModeType ≠ goModeSymlink then .ret ("", some .invalid)
    else .ret (r.content, none)

/-- fsCPIO.Readlink from the source: a path under a mount is forwarded
to the backing filesystem; otherwise the name is looked up in the
archive and read as a link. -/
def FsCPIO.Readlink (f : FsCPIO) (link : String) : GoRes (String × Option Err) :=
  match f.getfs link with
  | some (bfs, r) => .ret (bfs.readlinkFn r)
  | none =>
    match f.lookup link with
    | .error e => .ret ("", some e)
    | .ok ino => fileReadlink f ino

/-- The scanning loop of file.readdir from the source, over the records
after the directory (i is the absolute index of the head record): a
record whose name cannot be made relative to the directory name stops
the scan; a relative result whose Split has a nonempty directory part is
skipped; the rest are collected. -/
def scanChildren (dn : String) : List Record → Nat → List Nat
  | [], _ => []
  | r :: rest, i =>
    match goRel dn r.name with
    | none => []
    | some b =>
      if 0 < (goSplit b).1.length then scanChildren dn rest (i + 1)
      else i :: scanChildren dn rest (i + 1)

/-- file.readdir from the source: resolve the directory record, then
scan the records after it for entries. -/
def fileReaddirIdx (f : FsCPIO) (ino : Nat) : GoRes (Except Err (List Nat)) :=
  match f.recAt ino with
  | .panic m => .panic m
  | .ret (.error e) => .ret (.error e)
  | .ret (.ok r) => .ret (.ok (scanChildren r.name (f.recs.drop (ino + 1)) (ino + 1)))

/-- The entry-building loop of file.ReadDir from the source: for each
listed index, the accessed record index is the listed index PLUS the
offset (the source adds the offset again); a rec() error skips the
entry, and each found record is wrapped in an fstat. -/
def readEntries (f : FsCPIO) (offset : Nat) : List Nat → GoRes (Except Err (List FileInfo))
  | [] => .ret (.ok [])
  | i :: rest =>
    match f.recAt (i + offset) with
    | .panic m => .panic m
    | .ret (.error _) => readEntries f offset rest
    | .ret (.ok r) =>
      match readEntries f offset rest with
      | .ret (.ok l) => .ret (.ok (.fstat r :: l))
      | other => other

/-- file.ReadDir from the source: check the directory record, list the
child indices, return io.EOF when the offset exceeds the list, drop the
first offset entries, and build the fstat entries (count is accepted and
ignored, as in the source). -/
def fileReadDir (f : FsCPIO) (ino offset count : Nat) : GoRes (Except Err (List FileInfo)) :=
  match f.recAt ino with
  | .panic m => .panic m
  | .ret (.error e) => .ret (.error e)
  | .ret (.ok _) =>
    match fileReaddirIdx f ino with
    | .panic m => .panic m
    | .ret (.error e) => .ret (.error e)
    | .ret (.ok list) =>
      if offset > list.length then .ret (.error .eof)
      else readEntries f offset (list.drop offset)

/-- The loop of fsCPIO.resolvelink from the source, as a function of the
remaining budget (fuel = 21 - linkcount, so the Go guard linkcount > 20
is exactly fuel = 0) and of the current linkcount (still needed for the
first-hop ErrInvalid test).  Besides the Go result, the number of
successful Readlink steps is returned for the loop-bound analysis. -/
def resolvelinkGo (f : FsCPIO) : Nat → Nat → String → GoRes (String × Option Err) × Nat
  | 0, _, _ => (.ret ("", some .eloop), 0)
  | fuel + 1, lc, filename =>
    match f.Readlink filename with
    | .panic m => (.panic m, 0)
    | .ret (_, some e) =>
      if lc > 0 ∧ e = .invalid then (.ret (filename, none), 0)
      else (.ret (filename, some e), 0)
    | .ret (s, none) =>
      let s2 := if isAbsStr s then s else joinPath2 (goDir filename) s
      let rest := resolvelinkGo f fuel (lc + 1) s2
      (rest.1, rest.2 + 1)

/-- fsCPIO.resolvelink from the source: run the loop with linkcount 0. -/
def FsCPIO.resolvelink (f : FsCPIO) (filename : String) : GoRes (String × Option Err) :=
  (resolvelinkGo f 21 0 filename).1

/-- The number of successful Readlink hops resolvelink performs. -/
def resolvelinkHops (f : FsCPIO) (filename : String) : Nat :=
  (resolvelinkGo f 21 0 filename).2

/-- The mount loop of fsCPIO.ReadDir (current variant, the one the
repository's tests exercise): one synthetic ufstat entry per mount whose
backing Lstat(".") succeeds, named by the mount prefix; a failing
Lstat(".") skips just that mount. -/
def mountEnts (f : FsCPIO) : List FileInfo :=
  f.mnts.filterMap (fun m => m.fs.lstatDot.map (fun a => FileInfo.ufstat a m.n))

/-- fsCPIO.ReadDir from the source (current variant, with the
skip-on-Lstat-failure mount loop; an older duplicated variant instead
returns early there): a mounted path is forwarded to the backing
filesystem; otherwise a successful resolvelink redirects the name, the
name is looked up, the archive entries are listed with offset 0, and for
the root (empty name) the synthetic mount entries are appended. -/
def FsCPIO.ReadDir (f : FsCPIO) (filename : String) : GoRes (List FileInfo × Option Err) :=
  match f.getfs filename with
  | some (bfs, r) => .ret (bfs.readDirFn r)
  | none =>
    match f.resolvelink filename with
    | .panic m => .panic m
    | .ret rl =>
      let fn := if rl.2 = none then rl.1 else filename
      match f.lookup fn with
      | .error e => .ret ([], some e)
      | .ok ino =>
        match fileReadDir f ino 0 1048576 with
        | .panic m => .panic m
        | .ret (.error e) =>
          if fn = "" then .ret (mountEnts f, some e) else .ret ([], some e)
        | .ret (.ok fi) =>
          if fn = "" then .ret (fi ++ mountEnts f, none) else .ret (fi, none)

/-- fsCPIO.Rename from the source (current variant; in the oldest
variant rename always fails with ErrPermission): the old path must be
under a mount, else ErrPermission; the new path must be under a mount,
else the error is the fmt.Errorf wrap of the failed lookup; both mounts
must be the same filesystem object, else the
cannot-cross-file-systems error; only then is the backing Rename
invoked, and the performed call (filesystem identity and both relative
paths) is reported alongside the backing result. -/
def FsCPIO.Rename (f : FsCPIO) (oldpath newpath : String) :
    Option (Nat × String × String) × Option Err :=
  match f.getfs oldpath with
  | some (oldosfs, oldrel) =>
    match f.getfs newpath with
    | none => (none, some .renameWrap)
    | some (newosfs, newrel) =>
      if newosfs.fsid ≠ oldosfs.fsid then (none, some .renameCross)
      else (some (newosfs.fsid, oldrel, newrel), newosfs.renameFn oldrel newrel)
  | none => (none, some .permission)

/-- fileFail.Write from the source: an archive file handle panics on a
sequential write. -/
def fileWrite (_ : String) : GoRes (Int × Option Err) := .panic "Write"

/-- fileFail.Read from the source: an archive file handle panics on a
sequential read. -/
def fileRead (_ : String) : GoRes (Int × Option Err) := .panic "Read"

/-- fileFail.Seek from the source: an archive file handle panics on a
seek. -/
def fileSeek (_ : Int) (_ : Int) : GoRes (Int × Option Err) := .panic "Seek"

/-- file.WriteAt from the source: positioned writes return -1 and
ErrPermission (no panic). -/
def fileWriteAt (_ : String) (_ : Int) : GoRes (Int × Option Err) :=
  .ret (-1, some .permission)

/-- ok.Close from the source: closing an archive file handle is a no-op
returning nil. -/
def fileClose : GoRes (Option Err) := .ret none

/-! ## The NFS mount gate -/

/-- The three MOUNT statuses the handler produces. -/
inductive MountStatus where
  | ok
  | errPerm
  | errNoEnt
deriving DecidableEq, Repr

/-- NullAuthHandler state: the 32-bit mount counter (stored as its raw
two's-complement bit pattern) and the nonce. -/
structure Handler where
  count : Nat
  nonce : String
deriving DecidableEq, Repr

/-- atomic.AddInt32(&count, 1): 32-bit wraparound increment. -/
def addInt32 (c : Nat) : Nat := (c + 1) % 2 ^ 32

/-- The signed value of a 32-bit pattern, for the Go comparison c > 1. -/
def int32Val (c : Nat) : Int :=
  if c % 2 ^ 32 < 2 ^ 31 then (c % 2 ^ 32 : Int) else (c % 2 ^ 32 : Int) - 2 ^ 32

/-- NullAuthHandler.Mount from the source: increment the counter
atomically; a resulting count greater than 1 is ErrPerm; a dirpath
different from the nonce is ErrNoEnt; otherwise Ok.  The incremented
state is kept in every case. -/
def Handler.Mount (h : Handler) (dirpath : String) : MountStatus × Handler :=
  let c := addInt32 h.count
  let h2 := Handler.mk c h.nonce
  if int32Val c > 1 then (.errPerm, h2)
  else if dirpath ≠ h.nonce then (.errNoEnt, h2)
  else (.ok, h2)

/-- The handler state after k MOUNT calls with the same dirpath. -/
def afterCalls (h : Handler) (d : String) : Nat → Handler
  | 0 => h
  | k + 1 => (Handler.Mount (afterCalls h d k) d).2

/-! ## Concrete fixtures used by witnesses and counterexamples -/

/-- A one-record archive: the root directory. -/
def recsRoot : List Record := [Record.mk "." 0o040755 ""]

/-- A backing filesystem object (identity 1) with fixed behaviour. -/
def bfsA : BackingFS :=
  BackingFS.mk 1 (some 100) (fun _ => ("", some Err.notExist)) (fun _ _ => none)
    (fun _ => ([], none))

/-- A second, distinct backing filesystem object (identity 2). -/
def bfsB : BackingFS :=
  BackingFS.mk 2 (some 200) (fun _ => ("", some Err.notExist)) (fun _ _ => none)
    (fun _ => ([], none))

/-- A backing filesystem whose Lstat(".") fails. -/
def bfsBad : BackingFS :=
  BackingFS.mk 3 none (fun _ => ("", some Err.notExist)) (fun _ _ => none)
    (fun _ => ([], none))

/-- The mount "home" backed by bfsA. -/
def mpHome : MountPoint := MountPoint.mk "home" bfsA

/-- The mount "var" backed by bfsB. -/
def mpVar : MountPoint := MountPoint.mk "var" bfsB

/-- A composite with the root archive and one mount at "home". -/
def fsHome : FsCPIO := FsCPIO.mk recsRoot [mpHome]

/-- An archive whose record "a" is a symlink to itself. -/
def fsSelfLoop : FsCPIO :=
  FsCPIO.mk [Record.mk "." 0o040755 "", Record.mk "a" 0o120777 "a"] []

/-- A three-record archive: the root and two regular files. -/
def fsThree : FsCPIO :=
  FsCPIO.mk [Record.mk "." 0o040755 "", Record.mk "a" 0o100644 "x",
    Record.mk "b" 0o100644 "y"] []

/-- A deeper archive with nested directories, for the readdir claims. -/
def fsArch : FsCPIO :=
  FsCPIO.mk [Record.mk "." 0o040755 "", Record.mk "a" 0o040755 "",
    Record.mk "a/b" 0o040755 "", Record.mk "a/b/c" 0o100644 "z",
    Record.mk "a/d" 0o100644 "w", Record.mk "lib" 0o040755 ""] []

/-- A composite with three mounts, the middle one failing Lstat("."). -/
def fsMnts : FsCPIO :=
  FsCPIO.mk [Record.mk "." 0o040755 "", Record.mk "a" 0o100644 "x"]
    [mpHome, MountPoint.mk "bad" bfsBad, mpVar]

/-- Modelled from the spec: a path p is under a mount prefix iff p
equals the prefix or begins with the prefix followed by a slash.  Stated
only to refute C2; the source instead combines a plain string-prefix
test with filepath.Rel. -/
def underMountSpec (pre p : String) : Bool :=
  p = pre || goHasPrefix p (pre ++ "/")

/-- A plain path component: nonempty, not a dot or dotdot, and free of
slashes (as every component produced by splitting on slashes is).  The
well-formedness hypotheses of the readdir claims are stated with it. -/
def plainComp (c : String) : Prop :=
  c ≠ "" ∧ c ≠ "." ∧ c ≠ ".." ∧ '/' ∉ c.data

instance (c : String) : Decidable (plainComp c) := by
  unfold plainComp
  infer_instance

/-! ## Generic helper lemmas -/

/-- Distributing a mask over a bitwise or. -/
lemma lor_land_distrib (a b c : Nat) : (a ||| b) &&& c = (a &&& c) ||| (b &&& c) := by
  apply Nat.eq_of_testBit_eq
  intro i
  simp only [Nat.testBit_and, Nat.testBit_or]
  cases a.testBit i <;> cases b.testBit i <;> cases c.testBit i <;> rfl

/-- A mask ignores bits that it shares with nothing. -/
lemma land_of_disjoint_or (x t c : Nat) (h : t &&& c = 0) : (x ||| t) &&& c = x &&& c := by
  apply Nat.eq_of_testBit_eq
  intro i
  have ht : (t &&& c).testBit i = false := by rw [h]; exact Nat.zero_testBit i
  simp only [Nat.testBit_and] at ht
  simp only [Nat.testBit_and, Nat.testBit_or]
  cases hx : x.testBit i <;> cases h2 : t.testBit i <;> cases h3 : c.testBit i <;>
    simp_all

/-- Truncating to 32 bits does not change a mask below 2 to the 32. -/
lemma mod_two_pow_land (m c : Nat) (h : c < 2 ^ 32) : m % 2 ^ 32 &&& c = m &&& c := by
  apply Nat.eq_of_testBit_eq
  intro i
  simp only [Nat.testBit_and, Nat.testBit_mod_two_pow]
  by_cases hi : i < 32
  · simp [hi]
  · have : c < 2 ^ i := lt_of_lt_of_le h (Nat.pow_le_pow_right (by omega) (by omega))
    simp [Nat.testBit_lt_two_pow this, hi]

/-! ## Claim C9 -/

/-- C9 counterexample: the claim says the mode mapping preserves the low
12 permission bits; but a setuid regular file and the same plain regular
file map to the identical portable mode, although their low 12 bits
differ, so the setuid bit (and likewise setgid and sticky) is not
preserved in any encoding. -/
theorem c9_counterexample :
    uToGo 0o104755 = uToGo 0o100755 ∧ 0o104755 &&& 0o7777 ≠ 0o100755 &&& 0o7777 := by
  constructor
  · decide
  · decide

/-- Helper: the shape of uToGo in a branch of its type switch fixes the
result of masking with fs.ModeType. -/
lemma utogo_type_of (m tv : Nat) (hb : uToGo m = (m % 2 ^ 32 &&& 0o777) ||| tv)
    (htv : tv &&& goModeType = tv) : uToGo m &&& goModeType = tv := by
  rw [hb, lor_land_distrib, Nat.and_assoc,
    show ((0o777 : Nat) &&& goModeType) = 0 from by decide, Nat.and_zero, htv,
    Nat.zero_or]

/-- C9 (amended): the mode mapping distinguishes regular file,
directory, symlink, FIFO, character device and block device by the
Unix type field — a SOCKET has no case in the type switch, receives no
type bit, and is therefore indistinguishable from a regular file — and
preserves the low NINE permission bits; the setuid, setgid and sticky
bits are dropped entirely (they survive neither in the low bit
positions nor as the portable flags), and the reported modification
time is fixed at the Unix epoch. -/
theorem c9_amended_theorem (m : Nat) :
    (uToGo m &&& 0o777 = m &&& 0o777) ∧
    (uToGo m &&& 0o7000 = 0) ∧
    (uToGo m &&& (goModeSetuid ||| goModeSetgid ||| goModeSticky) = 0) ∧
    (m % 2 ^ 32 &&& 0o170000 = 0o100000 → uToGo m &&& goModeType = 0) ∧
    (m % 2 ^ 32 &&& 0o170000 = 0o040000 → uToGo m &&& goModeType = goModeDir) ∧
    (m % 2 ^ 32 &&& 0o170000 = 0o120000 → uToGo m &&& goModeType = goModeSymlink) ∧
    (m % 2 ^ 32 &&& 0o170000 = 0o010000 → uToGo m &&& goModeType = goModeNamedPipe) ∧
    (m % 2 ^ 32 &&& 0o170000 = 0o020000 → uToGo m &&& goModeType = goModeCharDevice) ∧
    (m % 2 ^ 32 &&& 0o170000 = 0o060000 → uToGo m &&& goModeType = goModeDevice) ∧
    (m % 2 ^ 32 &&& 0o170000 = 0o140000 → uToGo m &&& goModeType = 0) ∧
    uToGo 0o140755 = uToGo 0o100755 ∧
    (∀ r : Record, fstatModTime r = 0) := by
  have hshape : ∃ t : Nat, uToGo m = (m % 2 ^ 32 &&& 0o777) ||| t ∧
      t &&& 0o777 = 0 ∧ t &&& 0o7000 = 0 ∧
      t &&& (goModeSetuid ||| goModeSetgid ||| goModeSticky) = 0 := by
    simp only [uToGo]
    split
    · exact ⟨goModeNamedPipe, rfl, by decide, by decide, by decide⟩
    split
    · exact ⟨goModeCharDevice, rfl, by decide, by decide, by decide⟩
    split
    · exact ⟨goModeDir, rfl, by decide, by decide, by decide⟩
    split
    · exact ⟨goModeDevice, rfl, by decide, by decide, by decide⟩
    split
    · exact ⟨goModeSymlink, rfl, by decide, by decide, by decide⟩
    · exact ⟨0, rfl, by decide, by decide, by decide⟩
  obtain ⟨t, hb, h777, h7000, hsss⟩ := hshape
  have hperm : uToGo m &&& 0o777 = m &&& 0o777 := by
    rw [hb, land_of_disjoint_or _ _ _ h777, Nat.and_assoc,
      show (0o777 &&& 0o777 : Nat) = 0o777 from by decide,
      mod_two_pow_land _ _ (by decide)]
  have hclear : ∀ c : Nat, 0o777 &&& c = 0 → t &&& c = 0 → uToGo m &&& c = 0 := by
    intro c hc ht
    rw [hb, land_of_disjoint_or _ _ _ ht, Nat.and_assoc, hc, Nat.and_zero]
  refine ⟨hperm, hclear _ (by decide) h7000, hclear _ (by decide) hsss,
    ?_, ?_, ?_, ?_, ?_, ?_, ?_, by decide, fun _ => rfl⟩ <;> intro hm
  · exact utogo_type_of m _ (by simp only [uToGo, hm]; norm_num) (by decide)
  · exact utogo_type_of m _ (by simp only [uToGo, hm]; norm_num) (by decide)
  · exact utogo_type_of m _ (by simp only [uToGo, hm]; norm_num) (by decide)
  · exact utogo_type_of m _ (by simp only [uToGo, hm]; norm_num) (by decide)
  · exact utogo_type_of m _ (by simp only [uToGo, hm]; norm_num) (by decide)
  · exact utogo_type_of m _ (by simp only [uToGo, hm]; norm_num) (by decide)
  · exact utogo_type_of m _ (by simp only [uToGo, hm]; norm_num) (by decide)

/-- C9 witness: the amended theorem applied to a setgid directory mode
word and to a socket mode word, with the hypotheses evaluated. -/
theorem c9_witness :
    (0o042755 % 2 ^ 32 &&& 0o170000 = 0o040000 ∧
      uToGo 0o042755 &&& goModeType = goModeDir) ∧
    (0o140755 % 2 ^ 32 &&& 0o170000 = 0o140000 ∧
      uToGo 0o140755 &&& goModeType = 0) :=
  ⟨⟨by decide, (c9_amended_theorem 0o042755).2.2.2.2.1 (by decide)⟩,
    ⟨by decide,
      (c9_amended_theorem 0o140755).2.2.2.2.2.2.2.2.2.1 (by decide)⟩⟩

example : goRel "home" "homework" = some "../homework" := by decide
example : goRel "home" "home/x" = some "x" := by decide
example : goRel "a/b" "a" = some ".." := by decide
example : goRel "." "a/b" = some "a/b" := by decide
example : goRel "a" "a" = some "." := by decide
example : goRel ".." "..x" = none := by decide
example : goRel "a" "." = some "../." := by decide
example : goClean "./a" = "a" := by decide
example : goClean "" = "." := by decide
example : goDir "a" = "." := by decide
example : joinPath2 "." "a" = "a" := by decide
example : goSplit "a/b/c" = ("a/b/", "c") := by decide
example : goSplit "abc" = ("", "abc") := by decide
example : goHasPrefix "homework" "home" = true := by decide

/-! ## Claim C8 -/

/-- C8 counterexample: the claim says seek and sequential read fail by
RETURNING a PermissionDenied error and do not panic; in the source these
methods panic (the return after the panic is dead code). -/
theorem c8_counterexample :
    fileSeek 0 0 = .panic "Seek" ∧ fileSeek 0 0 ≠ .ret (-1, some .permission) ∧
    fileRead "" = .panic "Read" ∧ fileRead "" ≠ .ret (-1, some .permission) :=
  ⟨rfl, by decide, rfl, by decide⟩

/-- C8 (amended): on an archive-backed file handle, WriteAt returns -1
with ErrPermission without panicking and Close is a successful no-op;
but Seek and the sequential Read and Write PANIC rather than returning
PermissionDenied; ReadAt is the one data operation that works, reading
from the record payload whenever the handle's record resolves. -/
theorem c8_amended_theorem :
    (∀ p off, fileWriteAt p off = .ret (-1, some .permission)) ∧
    fileClose = .ret none ∧
    (∀ p, fileWrite p = .panic "Write") ∧
    (∀ p, fileRead p = .panic "Read") ∧
    (∀ off whence, fileSeek off whence = .panic "Seek") ∧
    (∀ (f : FsCPIO) (ino bufLen off : Nat) (r : Record),
      f.recAt ino = .ret (.ok r) →
      fileReadAt f ino bufLen off = .ret (recReadAt r bufLen off)) := by
  refine ⟨fun _ _ => rfl, rfl, fun _ => rfl, fun _ => rfl, fun _ _ => rfl, ?_⟩
  intro f ino bufLen off r h
  simp [fileReadAt, h]

/-- C8 witness: the amended theorem's ReadAt clause at a concrete
archive handle. -/
theorem c8_witness :
    fileReadAt fsThree 1 4 0 =
      .ret (recReadAt (Record.mk "a" 0o100644 "x") 4 0) :=
  c8_amended_theorem.2.2.2.2.2 fsThree 1 4 0 (Record.mk "a" 0o100644 "x") rfl

/-! ## Claim C1 -/

/-- The second component of a Mount call is the incremented handler. -/
lemma mount_snd (x : Handler) (d : String) :
    (x.Mount d).2 = Handler.mk (addInt32 x.count) x.nonce := by
  simp only [Handler.Mount, apply_ite Prod.snd, ite_self]

/-- The handler state after k identical calls: the counter wraps as a
32-bit value and the nonce is unchanged. -/
lemma afterCalls_eq (h : Handler) (d : String) (hlt : h.count < 2 ^ 32) (k : Nat) :
    afterCalls h d k = Handler.mk ((h.count + k) % 2 ^ 32) h.nonce := by
  induction k with
  | zero =>
    show h = _
    rw [Nat.add_zero, Nat.mod_eq_of_lt hlt]
  | succ k ih =>
    show (Handler.Mount (afterCalls h d k) d).2 = _
    rw [ih, mount_snd]
    show Handler.mk (addInt32 ((h.count + k) % 2 ^ 32)) h.nonce = _
    unfold addInt32
    congr 1
    omega

/-- C1: the mount gate's counter is a wrapping 32-bit signed value, so
the one-shot rule fails in long sequences: with the correct nonce, both
the first call and call number 2 to the 31 return MNT3_OK (by then the
counter has wrapped to the most negative 32-bit value, which passes the
count-greater-than-1 test), even though an early repeat does return
MNT3ERR_PERM as the claim describes. -/
theorem c1_code_bug_theorem :
    ((Handler.mk 0 "u").Mount "u").1 = .ok ∧
    ((afterCalls (Handler.mk 0 "u") "u" 1).Mount "u").1 = .errPerm ∧
    ((afterCalls (Handler.mk 0 "u") "u" (2 ^ 31 - 1)).Mount "u").1 = .ok := by
  refine ⟨by decide, ?_, ?_⟩
  · rw [afterCalls_eq _ _ (by decide) 1]
    decide
  · rw [afterCalls_eq _ _ (by decide) (2 ^ 31 - 1)]
    decide

/-! ## Claim C3 -/

/-- C3: the duplicate check in fsCPIO.mount runs hasMount on each
EXISTING mount's prefix (the Go loop variable shadows the parameter),
and every existing mount matches itself, so ANY second mount is rejected
with ErrExist: the prefixes "home" and "var" do not collide in either
direction, yet attaching "var" after "home" fails, both through
NewfsCPIO and through mount directly; attaching the first mount alone
succeeds. -/
theorem c3_code_bug_theorem :
    NewfsCPIO recsRoot [mpHome, mpVar] = .error .exist ∧
    ( FsCPIO.mk recsRoot [mpHome]).mount mpVar = .error .exist ∧
    goHasPrefix "var" "home" = false ∧
    goHasPrefix "home" "var" = false ∧
    NewfsCPIO recsRoot [mpHome] = .ok ( FsCPIO.mk recsRoot [mpHome]) :=
  ⟨rfl, rfl, by decide, by decide, rfl⟩

/-! ## Claim C2 -/

/-- First-match characterization of List.findSome?. -/
lemma findSome_first {α β : Type _} (g : α → Option β) :
    ∀ (l : List α) (b : β), l.findSome? g = some b →
      ∃ i a, l.get? i = some a ∧ g a = some b ∧
        ∀ j aj, j < i → l.get? j = some aj → g aj = none := by
  intro l
  induction l with
  | nil => intro b h; simp at h
  | cons x xs ih =>
    intro b h
    rw [List.findSome?_cons] at h
    cases hg : g x with
    | some v =>
      rw [hg] at h
      refine ⟨0, x, rfl, ?_, ?_⟩
      · rw [hg]
        exact h
      · intro j aj hj _
        omega
    | none =>
      rw [hg] at h
      obtain ⟨i, a, h1, h2, h3⟩ := ih b h
      refine ⟨i + 1, a, h1, h2, ?_⟩
      intro j aj hj hget
      cases j with
      | zero =>
        have hx : x = aj := by
          simpa using hget
        rw [← hx]
        exact hg
      | succ j => exact h3 j aj (by omega) hget

/-- C2 counterexample: against a mount with prefix "home", the path
"homework" is not under the mount in the claim's sense, yet the source
DOES dispatch it to that mount (strings.HasPrefix matches and
filepath.Rel succeeds, producing the remainder "../homework"), instead
of routing it to the archive. -/
theorem c2_counterexample :
    underMountSpec "home" "homework" = false ∧
    (fsHome.getfs "homework").isSome = true ∧
    (fsHome.getfs "homework").map Prod.snd = some "../homework" :=
  ⟨by decide, rfl, rfl⟩

/-- C2 (amended): an operation on p is dispatched to the first mount m
in list order whose prefix is a plain string prefix of p and against
which filepath.Rel succeeds, with the remainder produced by Rel; when no
mount passes that test the path is routed to the archive.  Since Rel
succeeds on merely-sharing prefixes, "homework" against mount "home" IS
dispatched to the mount, with remainder "../homework". -/
theorem c2_amended_theorem (f : FsCPIO) (p : String) :
    (∀ mp r, f.hasMount p = some (mp, r) →
      goHasPrefix p mp.n = true ∧ goRel mp.n p = some r ∧
      ∃ i, f.mnts.get? i = some mp ∧
        ∀ j mj, j < i → f.mnts.get? j = some mj →
          goHasPrefix p mj.n = false ∨ goRel mj.n p = none) ∧
    (f.hasMount p = none →
      ∀ mp ∈ f.mnts, goHasPrefix p mp.n = false ∨ goRel mp.n p = none) ∧
    fsHome.getfs "homework" = some (bfsA, "../homework") := by
  refine ⟨?_, ?_, rfl⟩
  · intro mp r h
    unfold FsCPIO.hasMount at h
    obtain ⟨i, a, hget, hg, hprev⟩ := findSome_first _ _ _ h
    have hcases : ∀ v : MountPoint,
        (if goHasPrefix p v.n then (goRel v.n p).map (fun rr => (v, rr)) else none) =
            some (mp, r) →
          v = mp ∧ goHasPrefix p v.n = true ∧ goRel v.n p = some r := by
      intro v hv
      by_cases hpre : goHasPrefix p v.n
      · rw [if_pos hpre] at hv
        rw [Option.map_eq_some'] at hv
        obtain ⟨rr, hrr, hpair⟩ := hv
        obtain ⟨h1, h2⟩ := Prod.mk.injEq .. ▸ hpair
        exact ⟨h1, by simpa using hpre, h2 ▸ hrr⟩
      · rw [if_neg hpre] at hv
        exact absurd hv (by simp)
    obtain ⟨ha, hpre, hrel⟩ := hcases a hg
    subst ha
    refine ⟨hpre, hrel, i, hget, ?_⟩
    intro j mj hj hgetj
    have hnone := hprev j mj hj hgetj
    by_cases hpre2 : goHasPrefix p mj.n
    · rw [if_pos hpre2] at hnone
      right
      exact Option.map_eq_none'.mp hnone
    · left
      simpa using hpre2
  · intro h mp hmem
    unfold FsCPIO.hasMount at h
    rw [List.findSome?_eq_none_iff] at h
    have hnone := h mp hmem
    by_cases hpre2 : goHasPrefix p mp.n
    · rw [if_pos hpre2] at hnone
      right
      exact Option.map_eq_none'.mp hnone
    · left
      simpa using hpre2

/-- C2 witness: the amended theorem's first clause applied to the
"homework" dispatch. -/
theorem c2_witness :
    goHasPrefix "homework" mpHome.n = true ∧
    goRel mpHome.n "homework" = some "../homework" ∧
    ∃ i, fsHome.mnts.get? i = some mpHome ∧
      ∀ j mj, j < i → fsHome.mnts.get? j = some mj →
        goHasPrefix "homework" mj.n = false ∨ goRel mj.n "homework" = none :=
  (c2_amended_theorem fsHome "homework").1 mpHome "../homework" rfl

/-! ## Claim C7 -/

/-- C7 counterexample: renaming from a mounted path to a path that
resolves to NO mount does not fail with the cross-filesystem error: the
source returns the fmt.Errorf wrap of the failed target lookup, a
different error value, so the claim's "different mount (or no mount)
gives CrossDevice" is wrong for the no-mount half. -/
theorem c7_counterexample :
    (fsHome.getfs "home/x").isSome = true ∧
    fsHome.getfs "zzz" = none ∧
    fsHome.Rename "home/x" "zzz" = (none, some .renameWrap) ∧
    Err.renameWrap ≠ Err.renameCross :=
  ⟨rfl, rfl, rfl, by decide⟩

/-- C7 (amended): when the old path resolves to a mount, a new path
resolving to no mount yields the error wrapping the failed lookup (not
CrossDevice), and a new path resolving to a mount with a DIFFERENT
backing filesystem object yields the cross-filesystem error; in both
cases no backing rename is performed.  The backing rename is invoked
exactly when both paths resolve to mounts with the same backing
filesystem object, and its result is the result of the call.  An old
path resolving to no mount yields ErrPermission. -/
theorem c7_amended_theorem (f : FsCPIO) (a b : String) :
    (∀ bo ra, f.getfs a = some (bo, ra) → f.getfs b = none →
      f.Rename a b = (none, some .renameWrap)) ∧
    (∀ bo ra bn rb, f.getfs a = some (bo, ra) → f.getfs b = some (bn, rb) →
      bn.fsid ≠ bo.fsid → f.Rename a b = (none, some .renameCross)) ∧
    (∀ eff, (f.Rename a b).1 = some eff →
      ∃ bo ra bn rb, f.getfs a = some (bo, ra) ∧ f.getfs b = some (bn, rb) ∧
        bn.fsid = bo.fsid ∧ eff = (bn.fsid, ra, rb) ∧
        (f.Rename a b).2 = bn.renameFn ra rb) ∧
    (f.getfs a = none → f.Rename a b = (none, some .permission)) := by
  refine ⟨?_, ?_, ?_, ?_⟩
  · intro bo ra hga hgb
    simp [ FsCPIO.Rename, hga, hgb]
  · intro bo ra bn rb hga hgb hne
    simp [ FsCPIO.Rename, hga, hgb, hne]
  · intro eff h
    cases hga : f.getfs a with
    | none => simp [ FsCPIO.Rename, hga] at h
    | some x =>
      obtain ⟨bo, ra⟩ := x
      cases hgb : f.getfs b with
      | none => simp [ FsCPIO.Rename, hga, hgb] at h
      | some y =>
        obtain ⟨bn, rb⟩ := y
        by_cases hne : bn.fsid = bo.fsid
        · have hcond : ¬(bn.fsid ≠ bo.fsid) := fun hc => hc hne
          simp only [ FsCPIO.Rename, hga, hgb] at h
          rw [if_neg hcond] at h
          refine ⟨bo, ra, bn, rb, rfl, rfl, hne, (Option.some_inj.mp h).symm, ?_⟩
          simp only [ FsCPIO.Rename, hga, hgb]
          rw [if_neg hcond]
        · simp [ FsCPIO.Rename, hga, hgb, hne] at h
  · intro hga
    simp [ FsCPIO.Rename, hga]

/-- C7 witness: the amended theorem applied both to a no-mount target
(wrapped-lookup error) and to a genuinely cross-mount pair (cross
error). -/
theorem c7_witness :
    fsHome.Rename "home/x" "zzz" = (none, some .renameWrap) ∧
    fsMnts.Rename "home/x" "var/y" = (none, some .renameCross) :=
  ⟨(c7_amended_theorem fsHome "home/x" "zzz").1 bfsA "x" rfl rfl,
    (c7_amended_theorem fsMnts "home/x" "var/y").2.1 bfsA "x" bfsB "y" rfl rfl
      (by decide)⟩

/-! ## Claim C6 -/

/-- The loop of resolvelink performs at most fuel successful Readlink
hops, and performing them all means the loop guard fired, returning the
ELOOP error. -/
lemma resolvelinkGo_hops (f : FsCPIO) :
    ∀ (fuel lc : Nat) (p : String),
      (resolvelinkGo f fuel lc p).2 ≤ fuel ∧
      ((resolvelinkGo f fuel lc p).2 = fuel →
        (resolvelinkGo f fuel lc p).1 = .ret ("", some .eloop)) := by
  intro fuel
  induction fuel with
  | zero =>
    intro lc p
    exact ⟨Nat.le_refl 0, fun _ => rfl⟩
  | succ fuel ih =>
    intro lc p
    cases hr : f.Readlink p with
    | panic m =>
      simp only [resolvelinkGo, hr]
      exact ⟨by omega, by omega⟩
    | ret v =>
      obtain ⟨s, e⟩ := v
      cases e with
      | some e =>
        simp only [resolvelinkGo, hr]
        split
        · exact ⟨by omega, by omega⟩
        · exact ⟨by omega, by omega⟩
      | none =>
        have hrest := ih (lc + 1) (if isAbsStr s then s else joinPath2 (goDir p) s)
        simp only [resolvelinkGo, hr]
        refine ⟨by omega, fun hh => ?_⟩
        exact hrest.2 (by omega)

/-- C6 counterexample: on an archive whose entry "a" is a symlink to
itself, resolvelink performs 21 successful Readlink hops, not at most
20: the guard linkcount greater than 20 lets hop 21 happen before the
loop error fires. -/
theorem c6_counterexample :
    resolvelinkHops fsSelfLoop "a" = 21 ∧
    ¬ resolvelinkHops fsSelfLoop "a" ≤ 20 := by
  refine ⟨by decide, by decide⟩

/-- C6 (amended): resolvelink terminates on every input, following at
most 21 successful Readlink hops (not 20), and when all 21 are consumed
it returns the ELOOP loop error rather than performing a 22nd hop. -/
theorem c6_amended_theorem (f : FsCPIO) (p : String) :
    resolvelinkHops f p ≤ 21 ∧
    (resolvelinkHops f p = 21 → f.resolvelink p = .ret ("", some .eloop)) :=
  resolvelinkGo_hops f 21 0 p

/-- C6 witness: the amended theorem's hop-exhaustion clause at the
self-loop archive. -/
theorem c6_witness : fsSelfLoop.resolvelink "a" = .ret ("", some .eloop) :=
  (c6_amended_theorem fsSelfLoop "a").2 (by decide)

/-! ## Path lemmas for the readdir claims -/

/-- The cleaning loop leaves a run of plain components unchanged. -/
lemma cleanRevAux_plain (rooted : Bool) :
    ∀ (l acc : List String), (∀ c ∈ l, plainComp c) →
      cleanRevAux rooted acc l = l.reverse ++ acc := by
  intro l
  induction l with
  | nil => intro acc _; simp [cleanRevAux]
  | cons c rest ih =>
    intro acc h
    obtain ⟨h1, h2, h3, _⟩ := h c (List.mem_cons_self _ _)
    unfold cleanRevAux
    rw [if_neg (by tauto), if_neg h3,
      ih (c :: acc) (fun x hx => h x (List.mem_cons_of_mem _ hx))]
    simp

/-- Cleaning a list of plain components is the identity. -/
lemma cleanComps_plain (rooted : Bool) (l : List String)
    (h : ∀ c ∈ l, plainComp c) : cleanComps rooted l = l := by
  unfold cleanComps
  rw [cleanRevAux_plain rooted l [] h]
  simp

/-- Stripping a list's common prefix with an extension of itself leaves
exactly the extension. -/
lemma dropCommon_self : ∀ (l m : List String), dropCommon l (l ++ m) = ([], m) := by
  intro l
  induction l with
  | nil =>
    intro m
    cases m <;> rfl
  | cons a as ih =>
    intro m
    simp [dropCommon, ih]

/-- The base remainder of dropCommon consists of base components. -/
lemma dropCommon_fst_subset :
    ∀ (l m : List String) (x : String), x ∈ (dropCommon l m).1 → x ∈ l := by
  intro l
  induction l with
  | nil =>
    intro m x hx
    cases m <;> simp [dropCommon] at hx
  | cons a as ih =>
    intro m x hx
    cases m with
    | nil => simpa [dropCommon] using hx
    | cons b bs =>
      by_cases hab : a = b
      · simp only [dropCommon, if_pos hab] at hx
        exact List.mem_cons_of_mem _ (ih bs x hx)
      · simpa [dropCommon, hab] using hx

/-- Unfolding of joinComponents at a two-or-more list. -/
lemma joinComponents_cons2 (a b : String) (l : List String) :
    joinComponents (a :: b :: l) = a ++ "/" ++ joinComponents (b :: l) := rfl

/-- The first component bounds the length of a joined list. -/
lemma length_joinComponents_cons (c : String) (l : List String) :
    c.length ≤ (joinComponents (c :: l)).length := by
  cases l with
  | nil => exact Nat.le_refl _
  | cons d r =>
    rw [joinComponents_cons2, String.length_append, String.length_append]
    omega

/-- Lengths add (plus the separator) across a join of two nonempty
component lists. -/
lemma length_joinComponents_append :
    ∀ (l m : List String), l ≠ [] → m ≠ [] →
      (joinComponents (l ++ m)).length =
        (joinComponents l).length + 1 + (joinComponents m).length := by
  intro l
  induction l with
  | nil => intro m h _; exact absurd rfl h
  | cons a as ih =>
    intro m _ hm
    cases as with
    | nil =>
      cases m with
      | nil => exact absurd rfl hm
      | cons b bs =>
        rw [List.singleton_append, joinComponents_cons2, String.length_append,
          String.length_append]
        have h2 : ("/" : String).length = 1 := rfl
        have h3 : joinComponents [a] = a := rfl
        rw [h2, h3]
    | cons a2 as2 =>
      have e1 : (a :: a2 :: as2) ++ m = a :: a2 :: (as2 ++ m) := rfl
      rw [e1, joinComponents_cons2, joinComponents_cons2]
      have e2 : joinComponents (a2 :: (as2 ++ m)) = joinComponents ((a2 :: as2) ++ m) := rfl
      rw [String.length_append, String.length_append, e2, ih m (by simp) hm,
        String.length_append, String.length_append]
      omega

/-- A join of two or more components contains a slash. -/
lemma slash_mem_joinComponents_cons2 (a b : String) (l : List String) :
    '/' ∈ (joinComponents (a :: b :: l)).data := by
  rw [joinComponents_cons2]
  simp

/-- A slash-free string has an empty Split directory part. -/
lemma goSplit_dir_len_zero (b : String) (h : '/' ∉ b.data) :
    (goSplit b).1.length = 0 := by
  have hall : b.data.reverse.takeWhile (fun c => c ≠ '/') = b.data.reverse := by
    apply List.takeWhile_eq_self_iff.mpr
    intro x hx
    have hx2 : x ∈ b.data := List.mem_reverse.mp hx
    simp only [decide_eq_true_eq]
    intro hxe
    exact h (hxe ▸ hx2)
  have hgoal : (goSplit b).1.length =
      (b.data.take (b.data.length -
        (b.data.reverse.takeWhile (fun c => c ≠ '/')).length)).length := rfl
  rw [hgoal, hall, List.length_reverse, Nat.sub_self]
  simp

/-- A string containing a slash has a nonempty Split directory part. -/
lemma goSplit_dir_len_pos (b : String) (h : '/' ∈ b.data) :
    0 < (goSplit b).1.length := by
  have hmem : '/' ∈ b.data.reverse := List.mem_reverse.mpr h
  have hne : b.data.reverse.takeWhile (fun c => c ≠ '/') ≠ b.data.reverse := by
    intro he
    have h2 := List.takeWhile_eq_self_iff.mp he '/' hmem
    simp at h2
  have hle : (b.data.reverse.takeWhile (fun c => c ≠ '/')).length ≤ b.data.reverse.length :=
    (List.takeWhile_sublist _).length_le
  have hlt : (b.data.reverse.takeWhile (fun c => c ≠ '/')).length < b.data.length := by
    rcases Nat.eq_or_lt_of_le hle with heq | hlt2
    · exact absurd ((List.takeWhile_sublist _).eq_of_length_le (Nat.le_of_eq heq.symm)) hne
    · simpa using hlt2
  have hgoal : (goSplit b).1.length =
      (b.data.take (b.data.length -
        (b.data.reverse.takeWhile (fun c => c ≠ '/')).length)).length := rfl
  rw [hgoal, List.length_take]
  omega

/-- Clean of a relative path, expressed through its cleaned component
list: an empty list gives ".", otherwise the joined components. -/
lemma goClean_of_comps (s : String) (dc : List String)
    (habs : isAbsStr s = false)
    (h : cleanComps false (splitOnSlash s) = dc) :
    goClean s = if dc.isEmpty then "." else joinComponents dc := by
  by_cases hs : s = ""
  · subst hs
    have hdc : dc = [] := by rw [← h]; rfl
    subst hdc
    rfl
  · unfold goClean
    rw [if_neg hs, habs] at *
    simp only [habs, h]
    rfl

/-- filepath.Rel of a relative path against a relative extension of its
cleaned components: the relative result is exactly the joined extension
components (this covers both direct children, one extra component, and
deeper descendants, several). -/
lemma goRel_append (dn t : String) (dc m : List String)
    (hdn : cleanComps false (splitOnSlash dn) = dc)
    (habs : isAbsStr dn = false) (htabs : isAbsStr t = false)
    (ht : cleanComps false (splitOnSlash t) = dc ++ m)
    (hdc : ∀ x ∈ dc, plainComp x) (hm : ∀ x ∈ m, plainComp x) (hmne : m ≠ []) :
    goRel dn t = some (joinComponents m) := by
  obtain ⟨c1, ms, hmeq⟩ : ∃ c1 ms, m = c1 :: ms := by
    cases m with
    | nil => exact absurd rfl hmne
    | cons c1 ms => exact ⟨c1, ms, rfl⟩
  have hA := goClean_of_comps dn dc habs hdn
  have hB := goClean_of_comps t (dc ++ m) htabs ht
  have hBne : (dc ++ m).isEmpty = false := by
    subst hmeq
    cases dc <;> rfl
  have hne : goClean dn ≠ goClean t := by
    rw [hA, hB, hBne]
    cases hd : dc with
    | nil =>
      subst hmeq
      simp only [List.isEmpty_nil, if_true, List.nil_append, Bool.false_eq_true, if_false]
      cases ms with
      | nil =>
        obtain ⟨hc1, hc2, hc3, hc4⟩ := hm c1 (List.mem_cons_self _ _)
        intro he
        exact hc2 he.symm
      | cons c2 rest =>
        intro he
        have hsl := slash_mem_joinComponents_cons2 c1 c2 rest
        rw [← he] at hsl
        simp at hsl
    | cons d ds =>
      simp only [List.isEmpty_cons, Bool.false_eq_true, if_false]
      have hlen := length_joinComponents_append (d :: ds) m (by simp) hmne
      have hmlen : 1 ≤ (joinComponents m).length := by
        subst hmeq
        have hc1 := hm c1 (List.mem_cons_self _ _)
        have : c1.length ≤ (joinComponents (c1 :: ms)).length :=
          length_joinComponents_cons c1 ms
        have hc1ne : c1 ≠ "" := hc1.1
        have : 0 < c1.length := by
          rcases Nat.eq_zero_or_pos c1.length with hz | hp
          · exact absurd (String.ext (List.eq_nil_of_length_eq_zero hz)) hc1ne
          · exact hp
        omega
      intro he
      have hlen2 := congrArg String.length he
      omega
  unfold goRel
  rw [if_neg hne]
  simp only [habs, htabs, hdn, ht, hBne]
  have hcond : ¬((false : Bool) ≠ false) := by simp
  rw [if_neg hcond]
  have htc : (if (false : Bool) = true ∧ ¬(false : Bool) = true then ["."] else dc ++ m) =
      dc ++ m := by simp
  rw [htc, dropCommon_self]
  simp

/-- filepath.Rel never fails when the base path is relative with plain
cleaned components and the target is relative. -/
lemma goRel_isSome (dn t : String) (dc : List String)
    (hdn : cleanComps false (splitOnSlash dn) = dc) (habs : isAbsStr dn = false)
    (hdc : ∀ x ∈ dc, plainComp x) (htabs : isAbsStr t = false) :
    (goRel dn t).isSome = true := by
  unfold goRel
  by_cases heq : goClean dn = goClean t
  · rw [if_pos heq]
    rfl
  · rw [if_neg heq]
    simp only [habs, htabs, hdn]
    have hcond : ¬((false : Bool) ≠ false) := by simp
    rw [if_neg hcond]
    rcases hdrop : dropCommon dc
        (if (cleanComps false (splitOnSlash t)).isEmpty = true ∧ ¬false = true then ["."]
         else cleanComps false (splitOnSlash t)) with ⟨br, tr⟩
    by_cases hbr : br.head? = some ".."
    · exfalso
      have hmem : (".." : String) ∈ br := by
        cases br with
        | nil => simp at hbr
        | cons x xs =>
          have : x = ".." := by simpa using hbr
          rw [this]
          exact List.mem_cons_self _ _
      have : (".." : String) ∈ dc := by
        have := dropCommon_fst_subset dc _ ".." (by rw [hdrop]; exact hmem)
        exact this
      exact (hdc ".." this).2.2.1 rfl
    · rw [if_neg hbr]
      rfl

/-! ## Lemmas about the readdir scan -/

/-- One-step unfolding of the scan. -/
lemma scanChildren_cons (dn : String) (r : Record) (rest : List Record) (s0 : Nat) :
    scanChildren dn (r :: rest) s0 =
      match goRel dn r.name with
      | none => []
      | some b => if 0 < (goSplit b).1.length then scanChildren dn rest (s0 + 1)
                  else s0 :: scanChildren dn rest (s0 + 1) := rfl

/-- Unfolding the scan at a record whose name cannot be made relative:
the scan stops. -/
lemma scanChildren_cons_none (dn : String) (r : Record) (rest : List Record)
    (s0 : Nat) (hr : goRel dn r.name = none) :
    scanChildren dn (r :: rest) s0 = [] := by
  rw [scanChildren_cons, hr]

/-- Unfolding the scan at a record whose name is made relative: a result
with a nonempty directory part is skipped, a separator-free one is
collected. -/
lemma scanChildren_cons_some (dn : String) (r : Record) (rest : List Record)
    (s0 : Nat) (b : String) (hr : goRel dn r.name = some b) :
    scanChildren dn (r :: rest) s0 =
      if 0 < (goSplit b).1.length then scanChildren dn rest (s0 + 1)
      else s0 :: scanChildren dn rest (s0 + 1) := by
  rw [scanChildren_cons, hr]

/-- Every index the scan emits lies in the scanned range. -/
lemma scanChildren_lb (dn : String) :
    ∀ (tail : List Record) (s0 j : Nat),
      j ∈ scanChildren dn tail s0 → s0 ≤ j ∧ j < s0 + tail.length := by
  intro tail
  induction tail with
  | nil =>
    intro s0 j h
    simp [scanChildren] at h
  | cons r rest ih =>
    intro s0 j h
    cases hr : goRel dn r.name with
    | none =>
      rw [scanChildren_cons_none dn r rest s0 hr] at h
      simp at h
    | some b =>
      rw [scanChildren_cons_some dn r rest s0 b hr] at h
      by_cases hc : 0 < (goSplit b).1.length
      · rw [if_pos hc] at h
        have := ih (s0 + 1) j h
        simp only [List.length_cons]
        omega
      · rw [if_neg hc] at h
        rcases List.mem_cons.mp h with hj | hj
        · subst hj
          simp only [List.length_cons]
          omega
        · have := ih (s0 + 1) j hj
          simp only [List.length_cons]
          omega

/-- The scan emits any index at most once. -/
lemma scanChildren_count_le (dn : String) :
    ∀ (tail : List Record) (s0 j : Nat), (scanChildren dn tail s0).count j ≤ 1 := by
  intro tail
  induction tail with
  | nil =>
    intro s0 j
    simp [scanChildren]
  | cons r rest ih =>
    intro s0 j
    cases hr : goRel dn r.name with
    | none =>
      rw [scanChildren_cons_none dn r rest s0 hr]
      simp
    | some b =>
      rw [scanChildren_cons_some dn r rest s0 b hr]
      by_cases hc : 0 < (goSplit b).1.length
      · rw [if_pos hc]
        exact ih (s0 + 1) j
      · rw [if_neg hc]
        rw [List.count_cons]
        by_cases hj : j = s0
        · subst hj
          have hz : (scanChildren dn rest (j + 1)).count j = 0 := by
            rw [List.count_eq_zero]
            intro hmem
            have := scanChildren_lb dn rest (j + 1) j hmem
            omega
          rw [hz]
          simp
        · have hbe : (s0 == j) = false := beq_eq_false_iff_ne.mpr (fun h => hj h.symm)
          rw [hbe]
          have := ih (s0 + 1) j
          simp
          omega

/-- Membership characterization of the scan: an index is emitted iff it
points (relative to the scan start) at a record whose name is made
relative to the directory name with a separator-free result, and no
earlier-or-equal record in the scan makes Rel fail. -/
lemma scanChildren_mem_iff (dn : String) :
    ∀ (tail : List Record) (s0 j : Nat),
      j ∈ scanChildren dn tail s0 ↔
        ∃ k r b, tail.get? k = some r ∧ j = s0 + k ∧
          goRel dn r.name = some b ∧ (goSplit b).1.length = 0 ∧
          ∀ k2 r2, k2 ≤ k → tail.get? k2 = some r2 →
            (goRel dn r2.name).isSome = true := by
  intro tail
  induction tail with
  | nil =>
    intro s0 j
    constructor
    · intro h
      simp [scanChildren] at h
    · rintro ⟨k, r, b, h1, _⟩
      simp at h1
  | cons r rest ih =>
    intro s0 j
    constructor
    · intro h
      cases hr : goRel dn r.name with
      | none =>
        rw [scanChildren_cons_none dn r rest s0 hr] at h
        simp at h
      | some b0 =>
        rw [scanChildren_cons_some dn r rest s0 b0 hr] at h
        by_cases hc : 0 < (goSplit b0).1.length
        · rw [if_pos hc] at h
          obtain ⟨k, r2, b, h1, h2, h3, h4, h5⟩ := (ih (s0 + 1) j).mp h
          refine ⟨k + 1, r2, b, by simpa using h1, by omega, h3, h4, ?_⟩
          intro k2 r3 hk2 hgot
          cases k2 with
          | zero =>
            have hr3 : r = r3 := by simpa using hgot
            rw [← hr3, hr]
            rfl
          | succ k2 => exact h5 k2 r3 (by omega) (by simpa using hgot)
        · rw [if_neg hc] at h
          rcases List.mem_cons.mp h with hj | hj
          · refine ⟨0, r, b0, rfl, by omega, hr, by omega, ?_⟩
            intro k2 r3 hk2 hgot
            have hk0 : k2 = 0 := by omega
            subst hk0
            have hr3 : r = r3 := by simpa using hgot
            rw [← hr3, hr]
            rfl
          · obtain ⟨k, r2, b, h1, h2, h3, h4, h5⟩ := (ih (s0 + 1) j).mp hj
            refine ⟨k + 1, r2, b, by simpa using h1, by omega, h3, h4, ?_⟩
            intro k2 r3 hk2 hgot
            cases k2 with
            | zero =>
              have hr3 : r = r3 := by simpa using hgot
              rw [← hr3, hr]
              rfl
            | succ k2 => exact h5 k2 r3 (by omega) (by simpa using hgot)
    · rintro ⟨k, r2, b, h1, h2, h3, h4, h5⟩
      have hr0 : (goRel dn r.name).isSome = true := h5 0 r (by omega) rfl
      cases hr : goRel dn r.name with
      | none =>
        rw [hr] at hr0
        simp at hr0
      | some b0 =>
        rw [scanChildren_cons_some dn r rest s0 b0 hr]
        cases k with
        | zero =>
          have hrr : r = r2 := by simpa using h1
          have hb : b0 = b := by
            rw [← hrr] at h3
            rw [hr] at h3
            exact Option.some_inj.mp h3
          subst hb
          rw [if_neg (by omega)]
          have hj : j = s0 := by omega
          subst hj
          exact List.mem_cons_self _ _
        | succ k =>
          have hmem : j ∈ scanChildren dn rest (s0 + 1) :=
            (ih (s0 + 1) j).mpr ⟨k, r2, b, by simpa using h1, by omega, h3, h4,
              fun k2 r3 hk2 hgot => h5 (k2 + 1) r3 (by omega) (by simpa using hgot)⟩
          by_cases hc : 0 < (goSplit b0).1.length
          · rw [if_pos hc]
            exact hmem
          · rw [if_neg hc]
            exact List.mem_cons_of_mem _ hmem

/-- One-step unfolding of the entry loop. -/
lemma readEntries_cons (f : FsCPIO) (offset : Nat) (i : Nat) (rest : List Nat) :
    readEntries f offset (i :: rest) =
      match f.recAt (i + offset) with
      | .panic m => .panic m
      | .ret (.error _) => readEntries f offset rest
      | .ret (.ok r) =>
        match readEntries f offset rest with
        | .ret (.ok l) => .ret (.ok (.fstat r :: l))
        | other => other := rfl

/-- The entry loop of file.ReadDir at offset 0 succeeds and produces one
fstat per in-range listed index. -/
lemma readEntries_ok (f : FsCPIO) :
    ∀ L : List Nat, (∀ i ∈ L, i < f.recs.length) →
      readEntries f 0 L =
        .ret (.ok (L.filterMap (fun i => (f.recs.get? i).map FileInfo.fstat))) := by
  intro L
  induction L with
  | nil => intro _; rfl
  | cons i rest ih =>
    intro h
    have hi : i < f.recs.length := h i (List.mem_cons_self _ _)
    cases hg : f.recs.get? i with
    | none =>
      have := List.get?_eq_none.mp hg
      omega
    | some r =>
      have hrec : f.recAt (i + 0) = .ret (.ok r) := by
        unfold FsCPIO.recAt
        rw [if_neg (by omega), show i + 0 = i from rfl, hg]
      have hstep : readEntries f 0 (i :: rest) =
          match readEntries f 0 rest with
          | .ret (.ok l) => .ret (.ok (.fstat r :: l))
          | other => other := by
        rw [readEntries_cons, hrec]
      rw [hstep, ih (fun x hx => h x (List.mem_cons_of_mem _ hx)),
        List.filterMap_cons, hg]
      rfl

/-! ## Claim C4 -/

/-- C4: readdir of a directory record scans exactly the records after
it; before the first record whose name cannot be made relative to the
directory name, it includes precisely those whose relative name is a
single separator-free component, skipping (without stopping) deeper
relative names; under archive well-formedness (relative record names,
plain cleaned directory components) each direct child after the
directory appears exactly once in the output and no
descendant-of-a-child appears. -/
theorem c4_confirmed_theorem (f : FsCPIO) (iD : Nat) (d : Record) (dc : List String)
    (hrec : f.recs.get? iD = some d)
    (hdn : cleanComps false (splitOnSlash d.name) = dc)
    (habs : isAbsStr d.name = false)
    (hdc : ∀ x ∈ dc, plainComp x)
    (hall : ∀ r ∈ f.recs, isAbsStr r.name = false) :
    ∃ L, fileReaddirIdx f iD = .ret (.ok L) ∧
      (∀ j ∈ L, iD + 1 ≤ j ∧ j < f.recs.length) ∧
      (∀ j, j ∈ L ↔ ∃ k r b, (f.recs.drop (iD + 1)).get? k = some r ∧
        j = iD + 1 + k ∧ goRel d.name r.name = some b ∧ (goSplit b).1.length = 0 ∧
        ∀ k2 r2, k2 ≤ k → (f.recs.drop (iD + 1)).get? k2 = some r2 →
          (goRel d.name r2.name).isSome = true) ∧
      (∀ j r c, f.recs.get? j = some r → iD < j →
        splitOnSlash r.name = dc ++ [c] → plainComp c → L.count j = 1) ∧
      (∀ j r c1 c2 rest2, f.recs.get? j = some r →
        splitOnSlash r.name = dc ++ c1 :: c2 :: rest2 →
        (∀ x ∈ c1 :: c2 :: rest2, plainComp x) → j ∉ L) := by
  have hiD : iD < f.recs.length := by
    rcases Nat.lt_or_ge iD f.recs.length with h | h
    · exact h
    · rw [List.get?_eq_none.mpr h] at hrec
      cases hrec
  refine ⟨scanChildren d.name (f.recs.drop (iD + 1)) (iD + 1), ?_, ?_, ?_, ?_, ?_⟩
  · unfold fileReaddirIdx FsCPIO.recAt
    rw [if_neg (by omega), hrec]
  · intro j hj
    have hb := scanChildren_lb d.name _ _ _ hj
    have hlen : (f.recs.drop (iD + 1)).length = f.recs.length - (iD + 1) :=
      List.length_drop _ _
    omega
  · intro j
    exact scanChildren_mem_iff d.name _ _ j
  · intro j r c hj hgt hsplit hc
    have hmemr : r ∈ f.recs := List.get?_mem hj
    have hjlt : j < f.recs.length := by
      rcases Nat.lt_or_ge j f.recs.length with h | h
      · exact h
      · rw [List.get?_eq_none.mpr h] at hj
        cases hj
    have htabs2 : isAbsStr r.name = false := hall r hmemr
    have hplainall : ∀ x ∈ dc ++ [c], plainComp x := by
      intro x hx
      rcases List.mem_append.mp hx with h1 | h1
      · exact hdc x h1
      · have hxc : x = c := by simpa using h1
        rw [hxc]
        exact hc
    have htclean : cleanComps false (splitOnSlash r.name) = dc ++ [c] := by
      rw [hsplit]
      exact cleanComps_plain false _ hplainall
    have hrel : goRel d.name r.name = some (joinComponents [c]) :=
      goRel_append d.name r.name dc [c] hdn habs htabs2 htclean hdc
        (by intro x hx
            have hxc : x = c := by simpa using hx
            rw [hxc]
            exact hc)
        (by simp)
    have hjoin : joinComponents [c] = c := rfl
    rw [hjoin] at hrel
    have hmem : j ∈ scanChildren d.name (f.recs.drop (iD + 1)) (iD + 1) := by
      apply (scanChildren_mem_iff d.name _ _ j).mpr
      refine ⟨j - (iD + 1), r, c, ?_, by omega, hrel,
        goSplit_dir_len_zero c hc.2.2.2, ?_⟩
      · rw [List.get?_drop, show iD + 1 + (j - (iD + 1)) = j from by omega]
        exact hj
      · intro k2 r2 hk2 hgot
        rw [List.get?_drop] at hgot
        exact goRel_isSome d.name r2.name dc hdn habs hdc
          (hall r2 (List.get?_mem hgot))
    have h1 := List.count_pos_iff.mpr hmem
    have h2 := scanChildren_count_le d.name (f.recs.drop (iD + 1)) (iD + 1) j
    omega
  · intro j r c1 c2 rest2 hj hsplit hplain hmem
    obtain ⟨k, r2, b, h1, h2, h3, h4, _⟩ := (scanChildren_mem_iff d.name _ _ j).mp hmem
    rw [List.get?_drop, show iD + 1 + k = j from by omega] at h1
    have hr2 : r2 = r := Option.some_inj.mp (h1.symm.trans hj)
    subst hr2
    have htabs2 : isAbsStr r2.name = false := hall r2 (List.get?_mem hj)
    have hplainall : ∀ x ∈ dc ++ c1 :: c2 :: rest2, plainComp x := by
      intro x hx
      rcases List.mem_append.mp hx with hx1 | hx1
      · exact hdc x hx1
      · exact hplain x hx1
    have htclean : cleanComps false (splitOnSlash r2.name) = dc ++ c1 :: c2 :: rest2 := by
      rw [hsplit]
      exact cleanComps_plain false _ hplainall
    have hrel : goRel d.name r2.name = some (joinComponents (c1 :: c2 :: rest2)) :=
      goRel_append d.name r2.name dc _ hdn habs htabs2 htclean hdc hplain (by simp)
    have hb : b = joinComponents (c1 :: c2 :: rest2) :=
      Option.some_inj.mp (h3.symm.trans hrel)
    have hslash : '/' ∈ b.data := by
      rw [hb]
      exact slash_mem_joinComponents_cons2 c1 c2 rest2
    have := goSplit_dir_len_pos b hslash
    omega

/-- C4 witness: the theorem applied to the concrete nested archive; the
children of "a" are the records at indices 2 and 4, the descendant
"a/b/c" at index 3 is not listed, and the direct child "a/d" appears
exactly once. -/
theorem c4_witness :
    fileReaddirIdx fsArch 1 = .ret (.ok [2, 4]) ∧
    ([2, 4] : List Nat).count 4 = 1 ∧ (3 : Nat) ∉ ([2, 4] : List Nat) := by
  obtain ⟨L, h1, _, _, hchild, hdesc⟩ :=
    c4_confirmed_theorem fsArch 1 (Record.mk "a" 0o040755 "") ["a"]
      (by decide) (by decide) (by decide) (by decide) (by decide)
  have hcomp : fileReaddirIdx fsArch 1 = .ret (.ok [2, 4]) := by rfl
  have hLe := hcomp.symm.trans h1
  injection hLe with h2
  injection h2 with h3
  refine ⟨hcomp, ?_, ?_⟩
  · have hc := hchild 4 (Record.mk "a/d" 0o100644 "w") "d"
      (by decide) (by decide) (by decide) (by decide)
    rw [← h3] at hc
    exact hc
  · have hd := hdesc 3 (Record.mk "a/b/c" 0o100644 "z") "b" "c" []
      (by decide) (by decide) (by decide)
    rw [← h3] at hd
    exact hd

/-! ## Claim C5 -/

/-- findSome? over a list on which the function always fails is none. -/
lemma findSome_none {α β : Type _} (g : α → Option β) :
    ∀ l : List α, (∀ x ∈ l, g x = none) → l.findSome? g = none := by
  intro l
  induction l with
  | nil => intro _; rfl
  | cons a t ih =>
    intro h
    rw [List.findSome?_cons, h a (List.mem_cons_self _ _)]
    exact ih (fun x hx => h x (List.mem_cons_of_mem _ hx))

/-- One error step of the resolvelink loop: a Readlink error that is not
the absorbed first-hop ErrInvalid stops the loop with the current name
and that error. -/
lemma resolvelinkGo_err (f : FsCPIO) (fuel lc : Nat) (fn s : String) (e : Err)
    (hr : f.Readlink fn = .ret (s, some e)) (hc : ¬ (lc > 0 ∧ e = .invalid)) :
    resolvelinkGo f (fuel + 1) lc fn = (.ret (fn, some e), 0) := by
  simp only [resolvelinkGo, hr]
  rw [if_neg hc]

/-- C5: readdir of the VFS root (the empty path), for a composite whose
record vector is nonempty, whose first record (the archive root) is not
a symlink, and whose mount prefixes are nonempty: the result is the
archive scan of the root's children in archive order, followed by one
synthetic ufstat entry per mount in mount-list order, displayed under
the mount prefix and carrying the attributes of the backing Lstat(".");
exactly the mounts whose Lstat(".") fails are omitted, and no error is
reported. -/
theorem c5_confirmed_theorem (f : FsCPIO) (r0 : Record) (rest : List Record)
    (hrecs : f.recs = r0 :: rest)
    (hnl : uToGo r0.mode &&& goModeType ≠ goModeSymlink)
    (hmn : ∀ m ∈ f.mnts, m.n ≠ "") :
    f.ReadDir "" = .ret
      ((scanChildren r0.name rest 1).filterMap
          (fun i => (f.recs.get? i).map FileInfo.fstat) ++
        f.mnts.filterMap
          (fun m => m.fs.lstatDot.map (fun a => FileInfo.ufstat a m.n)),
       none) := by
  have hmount : f.hasMount "" = none := by
    unfold FsCPIO.hasMount
    apply findSome_none
    intro m hm
    have hpre : goHasPrefix "" m.n = false := by
      unfold goHasPrefix
      cases hd : m.n.data with
      | nil => exact absurd (String.ext (by rw [hd])) (hmn m hm)
      | cons c l => rfl
    simp only [hpre, Bool.false_eq_true, if_false]
  have hget : f.getfs "" = none := by
    unfold FsCPIO.getfs
    rw [hmount]
    rfl
  obtain ⟨recs, mnts⟩ := f
  have hre : recs = r0 :: rest := hrecs
  subst hre
  have hmn2 := hmn
  have hlk : FsCPIO.lookup ( FsCPIO.mk (r0 :: rest) mnts) "" = .ok 0 := rfl
  have hrec0 : FsCPIO.recAt ( FsCPIO.mk (r0 :: rest) mnts) 0 = .ret (.ok r0) := by
    unfold FsCPIO.recAt
    rw [if_neg (by omega)]
    rfl
  have hrlk : FsCPIO.Readlink ( FsCPIO.mk (r0 :: rest) mnts) "" =
      .ret ("", some .invalid) := by
    simp only [ FsCPIO.Readlink, hget, hlk, fileReadlink, hrec0]
    rw [if_pos hnl]
  have hres : FsCPIO.resolvelink ( FsCPIO.mk (r0 :: rest) mnts) "" =
      .ret ("", some .invalid) := by
    unfold FsCPIO.resolvelink
    rw [show (21 : Nat) = 20 + 1 from rfl,
      resolvelinkGo_err _ 20 0 "" "" Err.invalid hrlk
        (fun h => absurd h.1 (Nat.lt_irrefl 0))]
  have hidx : fileReaddirIdx ( FsCPIO.mk (r0 :: rest) mnts) 0 =
      .ret (.ok (scanChildren r0.name rest 1)) := by
    simp only [fileReaddirIdx, hrec0]
    rfl
  have hbound : ∀ i ∈ scanChildren r0.name rest 1, i < (r0 :: rest).length := by
    intro i hi
    have := scanChildren_lb r0.name rest 1 i hi
    simp only [List.length_cons]
    omega
  have hrd : fileReadDir ( FsCPIO.mk (r0 :: rest) mnts) 0 0 1048576 =
      .ret (.ok ((scanChildren r0.name rest 1).filterMap
        (fun i => ((r0 :: rest).get? i).map FileInfo.fstat))) := by
    simp only [fileReadDir, hrec0, hidx]
    rw [if_neg (by omega), List.drop_zero]
    exact readEntries_ok _ _ hbound
  simp only [ FsCPIO.ReadDir, hget, hres, hlk, hrd, ite_self, mountEnts]
  rfl

/-- C5 witness: the theorem applied to a two-record archive with three
mounts, the middle one failing Lstat("."): the listing is the archive
child followed by the "home" and "var" synthetic entries, with "bad"
omitted. -/
theorem c5_witness :
    fsMnts.ReadDir "" = .ret
      ([FileInfo.fstat (Record.mk "a" 0o100644 "x"),
        FileInfo.ufstat 100 "home", FileInfo.ufstat 200 "var"], none) := by
  have h := c5_confirmed_theorem fsMnts (Record.mk "." 0o040755 "")
    [Record.mk "a" 0o100644 "x"] rfl (by decide) (by decide)
  rw [h]
  rfl

/-! ## Claim C10 -/

/-- C10 counterexample: lookup of the empty path succeeds with the root
handle (index 0), yet ReadDir on that very handle with offset 1 panics:
the entry loop adds the offset to an already-absolute child index, and
the resulting index equals the record-vector length, which the rec()
guard (greater-than, not greater-or-equal) lets through to an
out-of-range access. -/
theorem c10_counterexample :
    fsThree.lookup "" = .ok 0 ∧
    fileReadDir fsThree 0 1 1048576 = .panic "index out of range" := by
  exact ⟨rfl, rfl⟩

/-- Any index the construction-time name map can return is bounded by
the running index plus the remaining records, unless it was already in
the accumulator. -/
lemma nameIndexAux_spec (name : String) :
    ∀ (l : List Record) (i : Nat) (acc : Option Nat) (j : Nat),
      nameIndexAux name l i acc = some j →
      acc = some j ∨ (i ≤ j ∧ j < i + l.length) := by
  intro l
  induction l with
  | nil =>
    intro i acc j h
    exact Or.inl h
  | cons r t ih =>
    intro i acc j h
    rcases ih (i + 1) (if r.name = name then some i else acc) j h with h1 | h2
    · by_cases hr : r.name = name
      · rw [if_pos hr] at h1
        injection h1 with h1
        right
        simp only [List.length_cons]
        omega
      · rw [if_neg hr] at h1
        exact Or.inl h1
    · right
      simp only [List.length_cons]
      omega

/-- Every index stored in the name map is in bounds. -/
lemma nameIndex_lt (recs : List Record) (name : String) (j : Nat)
    (h : nameIndex recs name = some j) : j < recs.length := by
  rcases nameIndexAux_spec name recs 0 none j h with h1 | h2
  · exact absurd h1 (by simp)
  · omega

/-- C10 (amended): every index in the name map is strictly below the
record count; the empty path maps to the root index 0; and every
successful lookup on a nonempty archive yields an in-bounds index on
which rec() succeeds, ReadAt and Readlink never panic, and ReadDir never
panics at offset 0 (the offset the billy layer passes) — whereas a
positive ReadDir offset can reach an out-of-range index, as the
counterexample shows. -/
theorem c10_amended_theorem (f : FsCPIO) (hne : 0 < f.recs.length) :
    (∀ name j, nameIndex f.recs name = some j → j < f.recs.length) ∧
    f.lookup "" = .ok 0 ∧
    ∀ p ino, f.lookup p = .ok ino →
      ino < f.recs.length ∧
      ∃ r, f.recAt ino = .ret (.ok r) ∧
        (∀ bufLen off, fileReadAt f ino bufLen off = .ret (recReadAt r bufLen off)) ∧
        (∃ v, fileReadlink f ino = .ret v) ∧
        (∃ v, fileReadDir f ino 0 1048576 = .ret v) := by
  refine ⟨fun name j h => nameIndex_lt f.recs name j h, rfl, ?_⟩
  intro p ino h
  have hlt : ino < f.recs.length := by
    unfold FsCPIO.lookup at h
    by_cases hp : 0 < p.length
    · rw [if_pos hp] at h
      cases hni : nameIndex f.recs p with
      | none =>
        rw [hni] at h
        exact Except.noConfusion h
      | some j =>
        rw [hni] at h
        injection h with h2
        rw [← h2]
        exact nameIndex_lt f.recs p j hni
    · rw [if_neg hp] at h
      injection h with h2
      omega
  refine ⟨hlt, ?_⟩
  cases hg : f.recs.get? ino with
  | none =>
    have := List.get?_eq_none.mp hg
    omega
  | some r =>
    have hrec : f.recAt ino = .ret (.ok r) := by
      unfold FsCPIO.recAt
      rw [if_neg (by omega), hg]
    refine ⟨r, hrec, ?_, ?_, ?_⟩
    · intro bufLen off
      simp only [fileReadAt, hrec]
    · simp only [fileReadlink, hrec]
      by_cases hc : (uToGo r.mode) &&& goModeType ≠ goModeSymlink
      · rw [if_pos hc]
        exact ⟨_, rfl⟩
      · rw [if_neg hc]
        exact ⟨_, rfl⟩
    · have hidx : fileReaddirIdx f ino =
          .ret (.ok (scanChildren r.name (f.recs.drop (ino + 1)) (ino + 1))) := by
        simp only [fileReaddirIdx, hrec]
      have hdl : (f.recs.drop (ino + 1)).length = f.recs.length - (ino + 1) := by
        simp
      have hb : ∀ i ∈ scanChildren r.name (f.recs.drop (ino + 1)) (ino + 1),
          i < f.recs.length := by
        intro i hi
        have := scanChildren_lb r.name _ (ino + 1) i hi
        omega
      refine ⟨.ok ((scanChildren r.name (f.recs.drop (ino + 1)) (ino + 1)).filterMap
        (fun i => (f.recs.get? i).map FileInfo.fstat)), ?_⟩
      simp only [fileReadDir, hrec, hidx]
      rw [if_neg (by omega), List.drop_zero]
      exact readEntries_ok _ _ hb

/-- C10 witness: the amended theorem applied to the three-record archive
at the path "a": lookup yields the in-bounds index 1 and ReadAt on that
handle returns the payload without panicking (alongside the root lookup
clause). -/
theorem c10_witness :
    fsThree.lookup "" = .ok 0 ∧ fsThree.lookup "a" = .ok 1 ∧
    1 < fsThree.recs.length ∧ fileReadAt fsThree 1 1 0 = .ret ("x", none) := by
  obtain ⟨hmap, hroot, hlook⟩ := c10_amended_theorem fsThree (by decide)
  obtain ⟨hlt, r, hrec, hra, hrl, hrd⟩ := hlook "a" 1 rfl
  have h2 : fsThree.recAt 1 = GoRes.ret (Except.ok (Record.mk "a" 0o100644 "x")) := rfl
  have h3 := h2.symm.trans hrec
  injection h3 with h4
  injection h4 with h5
  refine ⟨hroot, rfl, hlt, ?_⟩
  rw [hra 1 0, ← h5]
  rfl
